import Mathlib

/-!
Verification of the labpubs deduplication and metadata-merge engine.

The definitions below are a shallow embedding of `src/labpubs/normalize.py`,
`src/labpubs/dedup.py` and the data model of `src/labpubs/models.py`.
Python strings are modeled as Lean `String` (lists of Unicode scalar
values).  The character-classification and character-mapping functions
(`str.lower`, `unicodedata.normalize("NFKD", ...)`, `unicodedata.combining`,
the regex classes `\w` and `\s`) are modeled character-wise by explicit
tables that agree with the Unicode database on the full ASCII range and on
the non-ASCII characters exercised in this development; every other
character is treated as caseless, decomposition-stable and non-combining,
which is what the Unicode database says for the vast majority of
characters.  Canonical reordering of combining-mark sequences during NFKD
is not modeled; it is irrelevant here because the program discards all
combining marks immediately after decomposing.
-/

set_option autoImplicit false

universe u

/-- Model of the regex class `\s` and of the characters removed by
`str.strip()`: ASCII whitespace.  (The table covers ASCII only; other
Unicode whitespace characters do not occur in this development.) -/
def isPySpace (c : Char) : Bool :=
  c == ' ' || c == '\t' || c == '\n' || c == '\x0d' || c == '\x0b' || c == '\x0c'

/-- Model of Python `str.lower()` on one character, as a (possibly
expanding) character map.  Full lowercasing is covered on the ASCII range;
all other characters are treated as caseless and map to themselves. -/
def pyLowerChar (c : Char) : List Char :=
  if 'A' ≤ c && c ≤ 'Z' then [Char.ofNat (c.toNat + 32)] else [c]

/-- Model of `unicodedata.normalize("NFKD", ...)` on one character.  The
table lists the decomposable characters exercised in this development
(these values are the ones in the Unicode character database); every other
character is treated as its own decomposition. -/
def nfkdChar (c : Char) : List Char :=
  if c = '™' then ['T', 'M']          -- U+2122 TRADE MARK SIGN, NFKD = "TM"
  else if c = '…' then ['.', '.', '.'] -- U+2026 HORIZONTAL ELLIPSIS, NFKD = "..."
  else if c = 'é' then ['e', '́'] -- U+00E9, NFKD = "e" + COMBINING ACUTE
  else [c]

/-- Model of `unicodedata.combining(c) != 0`.  The table lists the
combining marks exercised here; all other characters are non-combining. -/
def isCombiningChar (c : Char) : Bool :=
  c == '́'

/-- Model of the regex class `\w`: word characters.  Covers the ASCII
range exactly; non-ASCII letters are outside the modeled fragment. -/
def isWordChar (c : Char) : Bool :=
  ('a' ≤ c && c ≤ 'z') || ('A' ≤ c && c ≤ 'Z') || ('0' ≤ c && c ≤ '9') || c == '_'

/-- Apply a character-wise (possibly expanding) map to a character list,
concatenating the images.  Models Python string-wide `str.lower()` and
`unicodedata.normalize` given the per-character tables. -/
def expandWith (f : Char → List Char) : List Char → List Char
  | [] => []
  | c :: cs => f c ++ expandWith f cs

/-- Model of Python `str.strip()` on a character list: drop leading and
trailing whitespace. -/
def pyStripL (l : List Char) : List Char :=
  ((l.dropWhile isPySpace).reverse.dropWhile isPySpace).reverse

/-- Model of `re.sub(r"\s+", " ", text)`: replace every maximal run of
whitespace characters by a single space. -/
def collapseWS : List Char → List Char
  | [] => []
  | [c] => [if isPySpace c then ' ' else c]
  | c :: d :: rest =>
    if isPySpace c && isPySpace d then collapseWS (d :: rest)
    else (if isPySpace c then ' ' else c) :: collapseWS (d :: rest)

/-- No-two-adjacent-whitespace relation: the shape invariant of
`collapseWS` output, phrased for `List.Chain'`. -/
def WSok (a b : Char) : Prop := ¬(isPySpace a = true ∧ isPySpace b = true)

/-- Model of the filter `c for c in text if not unicodedata.combining(c)`. -/
def removeCombining (l : List Char) : List Char :=
  l.filter (fun c => !(isCombiningChar c))

/-- Model of `re.sub(r"[^\w\s]", "", text)`: keep exactly the word and
whitespace characters. -/
def keepWordSpace (l : List Char) : List Char :=
  l.filter (fun c => isWordChar c || isPySpace c)

/-- Character-list level body of `normalize_title`
(`src/labpubs/normalize.py` lines 49-66, identical to
`dedup._normalize_title`):
lower + strip, NFKD, drop combining marks, drop non-word non-space
characters, collapse whitespace runs, strip. -/
def normTitleL (l : List Char) : List Char :=
  pyStripL (collapseWS (keepWordSpace (removeCombining
    (expandWith nfkdChar (pyStripL (expandWith pyLowerChar l))))))

/-- `normalize_title` of `src/labpubs/normalize.py` (and the identical
`_normalize_title` of `src/labpubs/dedup.py`). -/
def normalize_title (s : String) : String := ⟨normTitleL s.data⟩

/-- Model of Python `str.lower()` on a whole string. -/
def pyLowerStr (s : String) : String := ⟨expandWith pyLowerChar s.data⟩

/-- Model of Python `str.strip()` on a whole string. -/
def pyStripStr (s : String) : String := ⟨pyStripL s.data⟩

/-- Literal-pattern test used to model the anchored regex of
`normalize_doi`: does `l` start with the pattern `pat`? -/
def startsWithL : List Char → List Char → Bool
  | [], _ => true
  | _ :: _, [] => false
  | p :: ps, c :: cs => p == c && startsWithL ps cs

/-- Model of `re.sub(r"^https?://doi\.org/", "", doi)`: remove one leading
occurrence of `https://doi.org/` or `http://doi.org/` (the input has
already been lowercased). -/
def dropDoiUrlL (l : List Char) : List Char :=
  if startsWithL "https://doi.org/".data l then l.drop 16
  else if startsWithL "http://doi.org/".data l then l.drop 15
  else l

/-- `normalize_doi` of `src/labpubs/normalize.py` lines 33-46 (identical
to `dedup._normalize_doi`): `None` maps to `None`; otherwise lowercase,
strip, remove a leading DOI-URL prefix, and turn the empty result into
`None` (Python `doi or None`). -/
def normalize_doi : Option String → Option String
  | none => none
  | some s =>
    let t := dropDoiUrlL (pyStripL (expandWith pyLowerChar s.data))
    if t = [] then none else some ⟨t⟩

/-- Upstream data source identifier (`models.Source`, a `StrEnum`). -/
inductive Source
  | OPENALEX
  | SEMANTIC_SCHOLAR
  | CROSSREF
deriving DecidableEq

/-- String value of a `Source` member (`StrEnum` value). -/
def Source.value : Source → String
  | .OPENALEX => "openalex"
  | .SEMANTIC_SCHOLAR => "semantic_scholar"
  | .CROSSREF => "crossref"

/-- Inverse lookup `Source(s)` on a value string.  The Python constructor
raises `ValueError` on a string that is not a member value; `merge_works`
only ever applies it to strings produced by `Source.value`, where this
total version agrees with the Python behavior. -/
def Source.ofValue (s : String) : Source :=
  if s = "openalex" then .OPENALEX
  else if s = "semantic_scholar" then .SEMANTIC_SCHOLAR
  else .CROSSREF

/-- Scholarly work type (`models.WorkType`).  `OTHER` is the generic
sentinel used by the merge policy. -/
inductive WorkType
  | JOURNAL_ARTICLE
  | CONFERENCE_PAPER
  | PREPRINT
  | BOOK_CHAPTER
  | DISSERTATION
  | OTHER
deriving DecidableEq

/-- `models.Author`. -/
structure Author where
  name : String
  openalex_id : Option String := none
  semantic_scholar_id : Option String := none
  orcid : Option String := none
  affiliation : Option String := none
  is_lab_member : Bool := false
  start_date : Option String := none
  end_date : Option String := none
  groups : List String := []
deriving DecidableEq

/-- `models.Funder`. -/
structure Funder where
  openalex_id : String
  name : String
  ror_id : Option String := none
  crossref_id : Option String := none
  country : Option String := none
  alternate_names : List String := []
deriving DecidableEq

/-- `models.Investigator`. -/
structure Investigator where
  given_name : Option String := none
  family_name : Option String := none
  orcid : Option String := none
  affiliation_name : Option String := none
  affiliation_country : Option String := none
deriving DecidableEq

/-- `models.Award`. -/
structure Award where
  openalex_id : String
  display_name : Option String := none
  description : Option String := none
  funder_award_id : Option String := none
  funder : Option Funder := none
  doi : Option String := none
  amount : Option Int := none
  funding_type : Option String := none
  start_year : Option Int := none
  lead_investigator : Option Investigator := none
  investigators : List Investigator := []
  funded_outputs_count : Option Int := none
deriving DecidableEq

/-- `models.LinkedResource`. -/
structure LinkedResource where
  url : String
  resource_type : String
  name : Option String := none
  description : Option String := none
deriving DecidableEq

/-- Opaque model of `datetime.date`: merge logic only moves dates around
and tests them for `None`, never inspects them. -/
structure PyDate where
  ordinal : Int
deriving DecidableEq

/-- Opaque model of `datetime.datetime`, likewise only moved around. -/
structure PyDatetime where
  ticks : Int
deriving DecidableEq

/-- `models.Work`: the unit being deduplicated.  Field defaults mirror
the pydantic model; `Work(...)` calls that omit a field produce the
default. -/
structure Work where
  doi : Option String := none
  title : String
  authors : List Author := []
  publication_date : Option PyDate := none
  year : Option Int := none
  venue : Option String := none
  work_type : WorkType := WorkType.OTHER
  abstract : Option String := none
  openalex_id : Option String := none
  semantic_scholar_id : Option String := none
  open_access : Option Bool := none
  open_access_url : Option String := none
  citation_count : Option Int := none
  tldr : Option String := none
  awards : List Award := []
  funders : List Funder := []
  linked_resources : List LinkedResource := []
  verified : Bool := false
  verified_by : Option String := none
  verified_at : Option PyDatetime := none
  verification_issue_url : Option String := none
  notes : Option String := none
  sources : List Source := []
  first_seen : Option PyDatetime := none
  last_updated : Option PyDatetime := none
deriving DecidableEq

/-- Python `a or b` for optional strings: `None` and `""` are falsy. -/
def pyOrStr : Option String → Option String → Option String
  | some s, b => if s = "" then b else some s
  | none, b => b

/-- Python `a or b` for optional ints: `None` and `0` are falsy. -/
def pyOrInt : Option Int → Option Int → Option Int
  | some k, b => if k = 0 then b else some k
  | none, b => b

/-- Python `a or b` (equivalently `a if a is not None else b`) for
optional values whose underlying Python objects are always truthy
(dates, datetimes, booleans under an `is not None` test). -/
def pyOrOpt {α : Type u} : Option α → Option α → Option α
  | some a, _ => some a
  | none, b => b

/-- Python `x or 0` for an optional int (`None` and `0` both give `0`,
and `(some 0).getD` gives `0` as well, so the two readings agree). -/
def pyIntOrZero : Option Int → Int
  | some k => k
  | none => 0

/-- First-occurrence deduplication with an accumulator of already-seen
elements: the order-and-value behavior of `dict.fromkeys(...)` keys. -/
def pyDedupAux {α : Type u} [DecidableEq α] (seen : List α) : List α → List α
  | [] => []
  | x :: xs => if x ∈ seen then pyDedupAux seen xs else x :: pyDedupAux (x :: seen) xs

/-- `list(dict.fromkeys(l))`: `l` with every element after its first
occurrence removed, order preserved. -/
def pyDedup {α : Type u} [DecidableEq α] (l : List α) : List α :=
  pyDedupAux [] l

/-- Python `d[k] = v` on an insertion-ordered dict modeled as an
association list: overwrite in place if the key exists, else append. -/
def dictSetItem {α : Type u} (k : String) (v : α) : List (String × α) → List (String × α)
  | [] => [(k, v)]
  | (k0, v0) :: rest =>
    if k0 = k then (k0, v) :: rest else (k0, v0) :: dictSetItem k v rest

/-- Python `k in d` for the association-list dict model. -/
def dictHasKey {α : Type u} (k : String) (d : List (String × α)) : Bool :=
  d.any (fun p => p.1 == k)

/-- `dedup._merge_awards` (lines 176-194): key awards by `openalex_id`,
existing entries first (and winning on key collision), then new entries
whose key is unseen; return the dict values in insertion order. -/
def _merge_awards (existing new : List Award) : List Award :=
  let seen1 := existing.foldl (fun d a => dictSetItem a.openalex_id a d) []
  let seen2 := new.foldl
    (fun d a => if dictHasKey a.openalex_id d then d else dictSetItem a.openalex_id a d) seen1
  seen2.map Prod.snd

/-- `dedup._merge_funders` (lines 197-215): same policy as
`_merge_awards`, keyed by the funder's `openalex_id`. -/
def _merge_funders (existing new : List Funder) : List Funder :=
  let seen1 := existing.foldl (fun d f => dictSetItem f.openalex_id f d) []
  let seen2 := new.foldl
    (fun d f => if dictHasKey f.openalex_id d then d else dictSetItem f.openalex_id f d) seen1
  seen2.map Prod.snd

/-- `dedup.merge_works` (lines 122-173), translated field by field.  The
fields the `Work(...)` call omits (verification and linked-resource
fields) take the model defaults, as in the source. -/
def merge_works (existing new : Work) : Work :=
  let merged_sources : List String :=
    pyDedup ((existing.sources.map Source.value) ++ (new.sources.map Source.value))
  { doi := pyOrStr existing.doi new.doi
    title := existing.title
    authors := if existing.authors ≠ [] then existing.authors else new.authors
    publication_date := pyOrOpt existing.publication_date new.publication_date
    year := pyOrInt existing.year new.year
    venue := pyOrStr existing.venue new.venue
    work_type :=
      if existing.work_type ≠ WorkType.OTHER then existing.work_type else new.work_type
    abstract := pyOrStr existing.abstract new.abstract
    openalex_id := pyOrStr existing.openalex_id new.openalex_id
    semantic_scholar_id := pyOrStr existing.semantic_scholar_id new.semantic_scholar_id
    open_access := pyOrOpt existing.open_access new.open_access
    open_access_url := pyOrStr existing.open_access_url new.open_access_url
    citation_count :=
      let m := max (pyIntOrZero existing.citation_count) (pyIntOrZero new.citation_count)
      if m = 0 then none else some m
    tldr := pyOrStr existing.tldr new.tldr
    awards := _merge_awards existing.awards new.awards
    funders := _merge_funders existing.funders new.funders
    sources := merged_sources.map Source.ofValue
    first_seen := existing.first_seen
    last_updated := pyOrOpt new.last_updated existing.last_updated }

/-- Helper for the model of Python `str.split()`: accumulate the current
word (reversed) and cut at whitespace, discarding empty pieces. -/
def splitWSAux : List Char → List Char → List (List Char)
  | [], acc => if acc = [] then [] else [acc.reverse]
  | c :: cs, acc =>
    if isPySpace c then
      (if acc = [] then splitWSAux cs [] else acc.reverse :: splitWSAux cs [])
    else splitWSAux cs (c :: acc)

/-- Model of Python `str.split()` with no arguments: split on whitespace
runs, producing no empty words. -/
def pySplitWS (l : List Char) : List (List Char) := splitWSAux l []

/-- `dedup._extract_surnames` (lines 48-62): for each author, split the
stripped name on whitespace and record the lowercased last token.  Python
collects the results in a `set`; the program only ever tests the set for
emptiness and for intersection with another set, so an order-preserving
list of the same elements is an adequate model. -/
def _extract_surnames (w : Work) : List String :=
  w.authors.foldr
    (fun a acc =>
      match (pySplitWS (pyStripL a.name.data)).getLast? with
      | some last => (⟨expandWith pyLowerChar last⟩ : String) :: acc
      | none => acc)
    []

/-- One element of the `existing_works` argument of `find_match`: the
tuple `(id, title_normalized, doi, year, author_surnames)` described in
its docstring. -/
structure ExistingWork where
  id : Int
  title_norm : String
  doi : Option String
  year : Option Int
  surnames : List String
deriving DecidableEq

/-- Tier 1 of `find_match` (lines 93-97): scan for the first summary
whose stored DOI string is truthy and equal (verbatim) to the candidate's
normalized DOI; `candidate_doi` is that normalized DOI. -/
def doi_tier (candidate_doi : String) (ws : List ExistingWork) : Option Int :=
  ws.findSome? (fun w =>
    match w.doi with
    | some s => if s ≠ "" ∧ s = candidate_doi then some w.id else none
    | none => none)

/-- Tier 2 of `find_match` (lines 99-103): first summary whose fuzzy
title score reaches the threshold.  `rapidfuzz.fuzz.token_sort_ratio` is
an external library function; it is passed in as the `score` parameter,
so every theorem below holds for an arbitrary scoring function. -/
def title_tier (score : String → String → Rat) (candidate_title : String)
    (title_threshold : Rat) (ws : List ExistingWork) : Option Int :=
  ws.findSome? (fun w =>
    if title_threshold ≤ score candidate_title w.title_norm then some w.id else none)

/-- Tier 3 of `find_match` (lines 105-117): same-year summaries whose
fuzzy title score is at least 80 and whose surname set meets the
candidate's surname set. -/
def year_author_tier (score : String → String → Rat) (candidate_title : String)
    (cyear : Int) (candidate_surnames : List String) (ws : List ExistingWork) : Option Int :=
  ws.findSome? (fun w =>
    if w.year ≠ some cyear then none
    else if score candidate_title w.title_norm < 80 then none
    else if candidate_surnames.any (fun s => decide (s ∈ w.surnames)) then some w.id
    else none)

/-- `dedup.find_match` (lines 65-119).  Tiered matching, first hit wins:
DOI exact match (guarded by truthiness of the candidate's normalized
DOI), then fuzzy title at `title_threshold` (the source's default is 90),
then the year + surname fallback (guarded by Python truthiness of
`candidate.year` and non-emptiness of the candidate's surname set). -/
def find_match (score : String → String → Rat) (candidate : Work)
    (existing_works : List ExistingWork) (title_threshold : Rat) : Option Int :=
  let candidate_doi := normalize_doi candidate.doi
  let candidate_title := normalize_title candidate.title
  let candidate_surnames := _extract_surnames candidate
  let t1 : Option Int :=
    match candidate_doi with
    | some d => if d ≠ "" then doi_tier d existing_works else none
    | none => none
  match t1 with
  | some i => some i
  | none =>
    match title_tier score candidate_title title_threshold existing_works with
    | some i => some i
    | none =>
      match candidate.year with
      | some y =>
        if y ≠ 0 ∧ candidate_surnames ≠ [] then
          year_author_tier score candidate_title y candidate_surnames existing_works
        else none
      | none => none

theorem findSome?_all_none {α β : Type u} (f : α → Option β) :
    ∀ l : List α, (∀ x ∈ l, f x = none) → l.findSome? f = none := by
  intro l h
  induction l with
  | nil => rfl
  | cons a as ih =>
    rw [List.findSome?_cons, h a (by simp)]
    exact ih (fun x hx => h x (by simp [hx]))

theorem findSome?_mem_of_eq_some {α β : Type u} (f : α → Option β) :
    ∀ l : List α, ∀ b, l.findSome? f = some b → ∃ a ∈ l, f a = some b := by
  intro l
  induction l with
  | nil => intro b h; simp [List.findSome?_nil] at h
  | cons a as ih =>
    intro b h
    rw [List.findSome?_cons] at h
    cases hfa : f a with
    | some c =>
      rw [hfa] at h
      exact ⟨a, by simp, by rw [hfa]; exact h⟩
    | none =>
      rw [hfa] at h
      obtain ⟨x, hx, hfx⟩ := ih b h
      exact ⟨x, by simp [hx], hfx⟩

theorem normalize_doi_some_ne_empty (o : Option String) (d : String)
    (h : normalize_doi o = some d) : d ≠ "" := by
  cases o with
  | none => simp [normalize_doi] at h
  | some s =>
    simp only [normalize_doi] at h
    by_cases ht : dropDoiUrlL (pyStripL (expandWith pyLowerChar s.data)) = []
    · simp [ht] at h
    · simp only [ht, ite_false] at h
      intro he
      rw [he] at h
      have h2 : (⟨dropDoiUrlL (pyStripL (expandWith pyLowerChar s.data))⟩ : String) = "" :=
        Option.some.inj h
      exact ht (congrArg String.data h2)

theorem doi_tier_first (d : String) (pre post : List ExistingWork) (w : ExistingWork)
    (hw : w.doi = some d) (hd : d ≠ "") (hpre : ∀ v ∈ pre, v.doi ≠ some d) :
    doi_tier d (pre ++ w :: post) = some w.id := by
  unfold doi_tier
  induction pre with
  | nil => simp [List.findSome?_cons, hw, hd]
  | cons v vs ih =>
    have hv : v.doi ≠ some d := hpre v (by simp)
    rw [List.cons_append, List.findSome?_cons]
    have hnone :
        (match v.doi with
          | some s => if s ≠ "" ∧ s = d then some v.id else none
          | none => none) = none := by
      cases hvd : v.doi with
      | none => rfl
      | some s =>
        have hs : s ≠ d := fun he => hv (by rw [hvd, he])
        simp [hs]
    rw [hnone]
    exact ih (fun u hu => hpre u (by simp [hu]))

/-- C9: the merged record's first_seen is always the existing record's;
the candidate's first_seen never appears in the output of merge_works,
whatever the two timestamps are. -/
theorem c9_merge_preserves_first_seen :
    ∀ e n : Work, (merge_works e n).first_seen = e.first_seen :=
  fun _ _ => rfl

/-- C1: evaluation of merge_works at the failing input of the claim (the
spec's own truncated-title example, also the repository test
test_prefers_richer_title).  The code keeps the existing record's
ellipsis-truncated title instead of the candidate's full title demanded
by the claim, so the title is not chosen by the richer-string rule. -/
theorem c1_merge_title_keeps_truncated_existing :
    (merge_works
        { title := "Comp. approaches to...", sources := [Source.OPENALEX] }
        { title := "Computational Approaches to Federal Rulemaking",
          sources := [Source.SEMANTIC_SCHOLAR] }).title
      = "Comp. approaches to..." ∧
    "Comp. approaches to..." ≠ "Computational Approaches to Federal Rulemaking" := by
  exact ⟨rfl, by decide⟩

/-- C2: evaluation of merge_works at the failing input of the claim (the
spec's C Shah / Chirag Shah example, also the repository test
test_prefers_richer_authors).  The code keeps the existing non-empty
author list unconditionally, so the richer candidate list is discarded,
contrary to the richer-author-list rule. -/
theorem c2_merge_authors_keep_existing :
    (merge_works
        { title := "Test", authors := [{ name := "C Shah" }],
          sources := [Source.OPENALEX] }
        { title := "Test",
          authors := [{ name := "Chirag Shah", openalex_id := some "A123" }],
          sources := [Source.SEMANTIC_SCHOLAR] }).authors
      = [{ name := "C Shah" }] ∧
    ({ name := "C Shah" } : Author) ≠ { name := "Chirag Shah", openalex_id := some "A123" } := by
  exact ⟨rfl, by decide⟩

/-- C10: tier 1 of find_match compares each summary's stored DOI string
verbatim against the candidate's normalized DOI.  If the summary stores
the same DOI in un-normalized form (so that normalizing both sides would
equate them, but the stored string differs from the normalized
candidate), the tier-1 scan does not match it. -/
theorem c10_tier1_verbatim_doi (c : Work) (w : ExistingWork) (d s : String)
    (hc : normalize_doi c.doi = some d) (hw : w.doi = some s)
    (hs : normalize_doi (some s) = some d) (hne : s ≠ d) :
    doi_tier d [w] = none := by
  unfold doi_tier
  rw [List.findSome?_cons, hw]
  simp [hne]

/-- Witness for C10: the candidate carries the already-normalized DOI
10.1234/test, the summary stores the uppercase form: no tier-1 match. -/
theorem c10_tier1_verbatim_doi_witness :
    doi_tier "10.1234/test" [⟨1, "some title", some "10.1234/TEST", none, []⟩] = none :=
  c10_tier1_verbatim_doi { title := "x", doi := some "10.1234/test" }
    ⟨1, "some title", some "10.1234/TEST", none, []⟩ "10.1234/test" "10.1234/TEST"
    (by decide) rfl (by decide) (by decide)

/-- C6: normalize_doi maps null to null; it returns null exactly when the
lowercased, stripped input with the DOI-URL prefix removed is empty;
otherwise it returns exactly that lowercased, stripped, prefix-free
string, which is never empty; and on the spec's example it yields
10.1234/test. -/
theorem c6_normalize_doi :
    normalize_doi none = none ∧
    (∀ s : String, dropDoiUrlL (pyStripL (expandWith pyLowerChar s.data)) = [] →
      normalize_doi (some s) = none) ∧
    (∀ s d : String, normalize_doi (some s) = some d →
      d.data = dropDoiUrlL (pyStripL (expandWith pyLowerChar s.data)) ∧ d ≠ "") ∧
    normalize_doi (some "https://doi.org/10.1234/TEST") = some "10.1234/test" := by
  refine ⟨rfl, ?_, ?_, by decide⟩
  · intro s h
    simp [normalize_doi, h]
  · intro s d h
    refine ⟨?_, normalize_doi_some_ne_empty _ _ h⟩
    simp only [normalize_doi] at h
    by_cases ht : dropDoiUrlL (pyStripL (expandWith pyLowerChar s.data)) = []
    · simp [ht] at h
    · simp only [ht, ite_false] at h
      rw [(Option.some.inj h).symm]

/-- Witness for C6: a DOI that is nothing but the URL prefix (in mixed
case, with surrounding whitespace) normalizes to null. -/
theorem c6_normalize_doi_witness :
    normalize_doi (some "  HTTP://doi.org/  ") = none :=
  c6_normalize_doi.2.1 "  HTTP://doi.org/  " (by decide)

/-- C3: if the candidate's normalized DOI is non-null and some summary
carries that exact DOI, find_match returns the identifier of the first
such summary, for every scoring function and every title threshold —
DOI equality short-circuits the fuzzy-title tiers and is never
overridden by them, however dissimilar the matched entry's title is. -/
theorem c3_doi_short_circuit (score : String → String → Rat) (thr : Rat)
    (c : Work) (pre post : List ExistingWork) (w : ExistingWork) (d : String)
    (hc : normalize_doi c.doi = some d)
    (hw : w.doi = some d)
    (hpre : ∀ v ∈ pre, v.doi ≠ some d) :
    find_match score c (pre ++ w :: post) thr = some w.id := by
  have hd : d ≠ "" := normalize_doi_some_ne_empty _ _ hc
  have ht1 : doi_tier d (pre ++ w :: post) = some w.id :=
    doi_tier_first d pre post w hw hd hpre
  simp only [find_match, hc, hd, ne_eq, not_false_eq_true, if_true, ht1]

/-- Witness for C3: candidate DOI 10.1234/TEST (normalizing to
10.1234/test), summary 7 stores that DOI with a wildly different title,
the scoring function is constantly 0: the DOI tier still wins. -/
theorem c3_doi_short_circuit_witness :
    find_match (fun _ _ => 0)
      { title := "Totally Unrelated", doi := some "10.1234/TEST" }
      [⟨3, "x", none, none, []⟩, ⟨7, "wildly different title", some "10.1234/test", none, []⟩]
      90 = some 7 :=
  c3_doi_short_circuit (fun _ _ => 0) 90
    { title := "Totally Unrelated", doi := some "10.1234/TEST" }
    [⟨3, "x", none, none, []⟩] []
    ⟨7, "wildly different title", some "10.1234/test", none, []⟩
    "10.1234/test" (by decide) rfl (by decide)

/-- C4: when no summary's DOI can fire tier 1 and no summary's fuzzy
title score reaches the tier-2 threshold, any identifier find_match
returns comes from the short-title fallback, which requires the
candidate to have a truthy year and a non-empty surname set, and the
returned summary to have the candidate's year, a title score of at least
80, and a surname in common with the candidate — so removing the
year-equality condition or the surname-overlap condition removes the
match. -/
theorem c4_fallback_conditions (score : String → String → Rat) (thr : Rat)
    (c : Work) (ws : List ExistingWork)
    (h1 : ∀ w ∈ ws, ∀ s, w.doi = some s → s ≠ "" → normalize_doi c.doi ≠ some s)
    (h2 : ∀ w ∈ ws, score (normalize_title c.title) w.title_norm < thr)
    (i : Int) (hret : find_match score c ws thr = some i) :
    (∃ y, c.year = some y ∧ y ≠ 0) ∧ _extract_surnames c ≠ [] ∧
    ∃ w ∈ ws, w.id = i ∧ w.year = c.year ∧
      80 ≤ score (normalize_title c.title) w.title_norm ∧
      ∃ s ∈ _extract_surnames c, s ∈ w.surnames := by
  have ht1 :
      (match normalize_doi c.doi with
        | some d => if d ≠ "" then doi_tier d ws else none
        | none => none) = (none : Option Int) := by
    cases hd : normalize_doi c.doi with
    | none => rfl
    | some d =>
      by_cases hde : d = ""
      · simp [hde]
      · simp only [ne_eq, hde, not_false_eq_true, if_true]
        unfold doi_tier
        apply findSome?_all_none
        intro w hw
        cases hwd : w.doi with
        | none => rfl
        | some s =>
          by_cases hs : s = d
          · exfalso
            subst hs
            exact h1 w hw s hwd hde hd
          · simp [hs]
  have ht2 : title_tier score (normalize_title c.title) thr ws = none := by
    unfold title_tier
    apply findSome?_all_none
    intro w hw
    simp [not_le.mpr (h2 w hw)]
  simp only [find_match, ht1, ht2] at hret
  cases hy : c.year with
  | none =>
    rw [hy] at hret
    replace hret : (none : Option Int) = some i := hret
    exact absurd hret (by simp)
  | some y =>
    rw [hy] at hret
    replace hret :
        (if y ≠ 0 ∧ _extract_surnames c ≠ [] then
          year_author_tier score (normalize_title c.title) y (_extract_surnames c) ws
        else none) = some i := hret
    by_cases hg : y ≠ 0 ∧ _extract_surnames c ≠ []
    · rw [if_pos hg] at hret
      obtain ⟨hy0, hs0⟩ := hg
      refine ⟨⟨y, rfl, hy0⟩, hs0, ?_⟩
      unfold year_author_tier at hret
      obtain ⟨w, hwmem, hfw⟩ := findSome?_mem_of_eq_some _ ws i hret
      by_cases hwy : w.year ≠ some y
      · rw [if_pos hwy] at hfw; exact absurd hfw (by simp)
      · rw [if_neg hwy] at hfw
        push_neg at hwy
        by_cases hsc : score (normalize_title c.title) w.title_norm < 80
        · rw [if_pos hsc] at hfw; exact absurd hfw (by simp)
        · rw [if_neg hsc] at hfw
          by_cases hany :
              (_extract_surnames c).any (fun s => decide (s ∈ w.surnames)) = true
          · rw [if_pos hany] at hfw
            have hid : w.id = i := Option.some.inj hfw
            obtain ⟨s, hsmem, hsw⟩ := List.any_eq_true.mp hany
            exact ⟨w, hwmem, hid, by rw [hwy], not_lt.mp hsc,
              s, hsmem, of_decide_eq_true hsw⟩
          · rw [if_neg (by simpa using hany)] at hfw
            exact absurd hfw (by simp)
    · rw [if_neg hg] at hret
      exact absurd hret (by simp)

/-- Witness for C4: the spec's short-title example.  Candidate "A
Survey", year 2025, author Jane Doe; one stored summary "a survey" with
year 2025 and surname doe; a scoring function that is constantly 85,
below the tier-2 threshold 90 but at the fallback bar 80.  The theorem's
conclusion (projected to the surname-set component) is obtained by
discharging every hypothesis at this input. -/
theorem c4_fallback_conditions_witness :
    _extract_surnames
      { title := "A Survey", year := some 2025, authors := [{ name := "Jane Doe" }] } ≠ [] :=
  (c4_fallback_conditions (fun _ _ => 85) 90
    { title := "A Survey", year := some 2025, authors := [{ name := "Jane Doe" }] }
    [⟨1, "a survey", none, some 2025, ["doe"]⟩]
    (by intro w hw s hws hse; simp at hw; subst hw; simp at hws)
    (by intro w hw; simp at hw; subst hw; decide)
    1 (by decide)).2.1

/-- C8 counterexample: with an existing citation count of -1 (the Work
model places no lower bound on the int field) and an absent candidate
count, merge_works yields a null citation_count even though the existing
count is neither absent nor zero — refuting "null exactly when both
inputs' counts were absent or zero" as universally stated. -/
theorem c8_citation_counterexample :
    (merge_works { title := "t", citation_count := some (-1) }
        { title := "t" }).citation_count = none ∧
    ¬((some (-1) : Option Int) = none ∨ (some (-1) : Option Int) = some 0) := by
  exact ⟨rfl, by decide⟩

/-- C8 amended: for works whose present citation counts are
non-negative, the merged citation_count is null exactly when both
inputs' counts are absent or zero, and any non-null merged value is the
maximum of the two counts with a missing count treated as 0. -/
theorem c8_citation_max (e n : Work)
    (he : ∀ k : Int, e.citation_count = some k → 0 ≤ k)
    (hn : ∀ k : Int, n.citation_count = some k → 0 ≤ k) :
    ((merge_works e n).citation_count = none ↔
      ((e.citation_count = none ∨ e.citation_count = some 0) ∧
       (n.citation_count = none ∨ n.citation_count = some 0))) ∧
    (∀ m : Int, (merge_works e n).citation_count = some m →
      m = max (e.citation_count.getD 0) (n.citation_count.getD 0)) := by
  have hmerge : (merge_works e n).citation_count =
      (if max (pyIntOrZero e.citation_count) (pyIntOrZero n.citation_count) = 0 then none
       else some (max (pyIntOrZero e.citation_count) (pyIntOrZero n.citation_count))) := rfl
  have hgetd : ∀ o : Option Int, pyIntOrZero o = o.getD 0 := by
    intro o; cases o <;> rfl
  have hzer : ∀ o : Option Int, (pyIntOrZero o = 0 ↔ (o = none ∨ o = some 0)) := by
    intro o
    cases o with
    | none => simp [pyIntOrZero]
    | some k => simp [pyIntOrZero]
  have hea : 0 ≤ pyIntOrZero e.citation_count := by
    cases hce : e.citation_count with
    | none => simp [pyIntOrZero]
    | some k => simpa [pyIntOrZero] using he k hce
  have hnb : 0 ≤ pyIntOrZero n.citation_count := by
    cases hcn : n.citation_count with
    | none => simp [pyIntOrZero]
    | some k => simpa [pyIntOrZero] using hn k hcn
  constructor
  · rw [hmerge]
    by_cases hmax :
        max (pyIntOrZero e.citation_count) (pyIntOrZero n.citation_count) = 0
    · rw [if_pos hmax]
      have h1 : pyIntOrZero e.citation_count = 0 :=
        le_antisymm (hmax ▸ le_max_left _ _) hea
      have h2 : pyIntOrZero n.citation_count = 0 :=
        le_antisymm (hmax ▸ le_max_right _ _) hnb
      simp [(hzer _).mp h1, (hzer _).mp h2]
    · rw [if_neg hmax]
      constructor
      · intro h; exact absurd h (by simp)
      · rintro ⟨ha, hb⟩
        exact absurd (by rw [(hzer _).mpr ha, (hzer _).mpr hb]; simp) hmax
  · intro m hm
    rw [hmerge] at hm
    rw [← hgetd e.citation_count, ← hgetd n.citation_count]
    split at hm
    · exact absurd hm (by simp)
    · exact (Option.some.inj hm).symm

/-- Witness for C8: both counts present and non-negative (10 and 15),
the merged count is their maximum 15. -/
theorem c8_citation_max_witness :
    (15 : Int) =
      max ((some (10 : Int)).getD 0) ((some (15 : Int)).getD 0) :=
  (c8_citation_max { title := "t", citation_count := some 10 }
      { title := "t", citation_count := some 15 }
      (by intro k hk; injection hk with h; omega)
      (by intro k hk; injection hk with h; omega)).2
    15 rfl

theorem pyDedupAux_congr {α : Type u} [DecidableEq α] :
    ∀ (l : List α) (s1 s2 : List α), (∀ x, x ∈ s1 ↔ x ∈ s2) →
      pyDedupAux s1 l = pyDedupAux s2 l := by
  intro l
  induction l with
  | nil => intro s1 s2 h; rfl
  | cons x xs ih =>
    intro s1 s2 h
    simp only [pyDedupAux]
    by_cases hx : x ∈ s1
    · rw [if_pos hx, if_pos ((h x).mp hx), ih s1 s2 h]
    · rw [if_neg hx, if_neg (fun hc => hx ((h x).mpr hc))]
      have h2 : ∀ z, z ∈ x :: s1 ↔ z ∈ x :: s2 := by
        intro z; simp [h z]
      rw [ih (x :: s1) (x :: s2) h2]

theorem pyDedupAux_append {α : Type u} [DecidableEq α] :
    ∀ (a b s : List α),
      pyDedupAux s (a ++ b) = pyDedupAux s a ++ pyDedupAux (a ++ s) b := by
  intro a
  induction a with
  | nil => intro b s; rfl
  | cons x a' ih =>
    intro b s
    simp only [List.cons_append, pyDedupAux, List.append_eq]
    by_cases hx : x ∈ s
    · rw [if_pos hx, if_pos hx, ih b s]
      have hmm : ∀ z, z ∈ a' ++ s ↔ z ∈ x :: (a' ++ s) := by
        intro z
        simp only [List.mem_cons, List.mem_append]
        constructor
        · intro hz; tauto
        · rintro (rfl | hz)
          · right; exact hx
          · exact hz
      rw [pyDedupAux_congr b (a' ++ s) (x :: (a' ++ s)) hmm]
    · rw [if_neg hx, if_neg hx, ih b (x :: s), List.cons_append]
      have hmm : ∀ z, z ∈ a' ++ x :: s ↔ z ∈ x :: (a' ++ s) := by
        intro z
        simp only [List.mem_cons, List.mem_append]
        tauto
      rw [pyDedupAux_congr b (a' ++ x :: s) (x :: (a' ++ s)) hmm]

theorem pyDedupAux_filter {α : Type u} [DecidableEq α] :
    ∀ (l s : List α),
      pyDedupAux s l = (pyDedup l).filter (fun y => decide (y ∉ s)) := by
  intro l
  induction l with
  | nil => intro s; rfl
  | cons x xs ih =>
    intro s
    have hD : pyDedup (x :: xs) = x :: pyDedupAux [x] xs := by
      simp [pyDedup, pyDedupAux]
    by_cases hx : x ∈ s
    · have lhs : pyDedupAux s (x :: xs) = (pyDedup xs).filter (fun y => decide (y ∉ s)) := by
        simp only [pyDedupAux, if_pos hx]
        exact ih s
      have hfx : (fun y => decide (y ∉ s)) x = false := by simp [hx]
      rw [lhs, hD, List.filter_cons_of_neg (by simpa using hfx), ih [x], List.filter_filter]
      have hfun : (fun y => decide (y ∉ s)) =
          (fun y => decide (y ∉ s) && decide (y ∉ [x])) := by
        funext y
        by_cases hyx : y = x
        · subst hyx; simp [hx]
        · simp [hyx]
      rw [← hfun]
    · have lhs : pyDedupAux s (x :: xs) =
          x :: (pyDedup xs).filter (fun y => decide (y ∉ x :: s)) := by
        simp only [pyDedupAux, if_neg hx]
        rw [ih (x :: s)]
      rw [lhs, hD, List.filter_cons_of_pos (by simpa using hx), ih [x], List.filter_filter]
      have hfun : (fun y => decide (y ∉ x :: s)) =
          (fun y => decide (y ∉ s) && decide (y ∉ [x])) := by
        funext y
        by_cases hyx : y = x
        · subst hyx; simp
        · simp [hyx]
      rw [hfun]

theorem pyDedupAux_map {α β : Type u} [DecidableEq α] [DecidableEq β]
    (f : α → β) (hf : ∀ a b, f a = f b → a = b) :
    ∀ (l seen : List α),
      pyDedupAux (seen.map f) (l.map f) = (pyDedupAux seen l).map f := by
  intro l
  induction l with
  | nil => intro seen; rfl
  | cons x xs ih =>
    intro seen
    simp only [List.map_cons, pyDedupAux]
    by_cases hx : x ∈ seen
    · rw [if_pos (List.mem_map_of_mem f hx), if_pos hx, ih seen]
    · have hfx : f x ∉ seen.map f := by
        intro hc
        obtain ⟨a, ha, hfa⟩ := List.mem_map.mp hc
        exact hx (hf a x hfa ▸ ha)
      rw [if_neg hfx, if_neg hx, List.map_cons]
      rw [show (f x :: seen.map f) = (x :: seen).map f from rfl, ih (x :: seen)]

/-- C7: the merged record's sources are the order-preserving,
deduplicated union of the two inputs' source lists: first the existing
record's sources (first occurrences, original order), then those of the
candidate's sources not already among the existing ones (first
occurrences, original order). -/
theorem c7_sources_union (e n : Work) :
    (merge_works e n).sources = pyDedup (e.sources ++ n.sources) ∧
    pyDedup (e.sources ++ n.sources) =
      pyDedup e.sources ++ (pyDedup n.sources).filter (fun s => decide (s ∉ e.sources)) := by
  have hval : ∀ a b : Source, a.value = b.value → a = b := by
    intro a b
    cases a <;> cases b <;> decide
  have hround : ∀ s : Source, Source.ofValue s.value = s := by
    intro s
    cases s <;> rfl
  constructor
  · have hstart : (merge_works e n).sources =
        (pyDedup ((e.sources.map Source.value) ++ (n.sources.map Source.value))).map
          Source.ofValue := rfl
    rw [hstart, ← List.map_append]
    unfold pyDedup
    rw [show ([] : List String) = ([] : List Source).map Source.value from rfl]
    rw [pyDedupAux_map Source.value hval (e.sources ++ n.sources) [], List.map_map]
    have hcomp : (Source.ofValue ∘ Source.value) = id := by
      funext s; exact hround s
    rw [hcomp, List.map_id]
  · have h1 := pyDedupAux_append e.sources n.sources []
    rw [List.append_nil] at h1
    have h2 := pyDedupAux_filter n.sources e.sources
    unfold pyDedup
    rw [h1, h2]
    rfl

theorem mem_of_mem_dropWhile {α : Type u} (p : α → Bool) :
    ∀ (l : List α) (c : α), c ∈ l.dropWhile p → c ∈ l := by
  intro l
  induction l with
  | nil => intro c h; simp at h
  | cons x xs ih =>
    intro c h
    rw [List.dropWhile_cons] at h
    by_cases hx : p x = true
    · simp only [hx, if_true] at h
      exact List.mem_cons_of_mem x (ih c h)
    · simp only [hx, if_false] at h
      exact h

theorem mem_of_mem_pyStripL (l : List Char) (c : Char) (h : c ∈ pyStripL l) : c ∈ l := by
  unfold pyStripL at h
  rw [List.mem_reverse] at h
  have h2 := mem_of_mem_dropWhile isPySpace _ _ h
  rw [List.mem_reverse] at h2
  exact mem_of_mem_dropWhile isPySpace _ _ h2

theorem mem_collapseWS :
    ∀ (l : List Char) (c : Char), c ∈ collapseWS l → c ∈ l ∨ c = ' ' := by
  intro l
  induction l with
  | nil => intro c h; simp [collapseWS] at h
  | cons x rest ih =>
    intro c h
    cases rest with
    | nil =>
      simp only [collapseWS, List.mem_singleton] at h
      by_cases hx : isPySpace x = true
      · rw [if_pos hx] at h; right; exact h
      · rw [if_neg hx] at h; left; simp [h]
    | cons d rest2 =>
      simp only [collapseWS] at h
      by_cases hb : (isPySpace x && isPySpace d) = true
      · rw [if_pos hb] at h
        rcases ih c h with hm | he
        · left; exact List.mem_cons_of_mem x hm
        · right; exact he
      · rw [if_neg hb] at h
        rcases List.mem_cons.mp h with he | hm
        · by_cases hx : isPySpace x = true
          · rw [if_pos hx] at he; right; exact he
          · rw [if_neg hx] at he; left; simp [he]
        · rcases ih c hm with hm2 | he2
          · left; exact List.mem_cons_of_mem x hm2
          · right; exact he2

theorem collapseWS_head :
    ∀ (cs : List Char) (x : Char),
      (collapseWS (x :: cs)).head? = some (if isPySpace x = true then ' ' else x) := by
  intro cs
  induction cs with
  | nil => intro x; rfl
  | cons d rest ih =>
    intro x
    simp only [collapseWS]
    by_cases hb : (isPySpace x && isPySpace d) = true
    · rw [if_pos hb]
      have hx : isPySpace x = true := (Bool.and_eq_true _ _ |>.mp hb).1
      have hd : isPySpace d = true := (Bool.and_eq_true _ _ |>.mp hb).2
      rw [ih d, if_pos hd, if_pos hx]
    · rw [if_neg hb, List.head?_cons]

theorem collapseWS_chain' :
    ∀ l : List Char, List.Chain' WSok (collapseWS l) := by
  intro l
  induction l with
  | nil => simp [collapseWS]
  | cons x rest ih =>
    cases rest with
    | nil =>
      simp only [collapseWS]
      exact List.chain'_singleton _
    | cons d rest2 =>
      simp only [collapseWS]
      by_cases hb : (isPySpace x && isPySpace d) = true
      · rw [if_pos hb]; exact ih
      · rw [if_neg hb]
        rw [List.chain'_cons']
        refine ⟨?_, ih⟩
        intro y hy
        rw [collapseWS_head rest2 d] at hy
        simp only [Option.mem_def, Option.some.injEq] at hy
        subst hy
        by_cases hx : isPySpace x = true
        · have hd : isPySpace d = false := by
            cases hdd : isPySpace d
            · rfl
            · exact absurd (by rw [hx, hdd]; rfl) hb
          rw [if_pos hx, if_neg (by rw [hd]; exact Bool.false_ne_true)]
          intro hcon
          rw [hd] at hcon
          exact Bool.false_ne_true hcon.2
        · rw [if_neg hx]
          intro hcon
          exact hx hcon.1

theorem collapseWS_space_mem :
    ∀ (l : List Char) (c : Char), c ∈ collapseWS l → isPySpace c = true → c = ' ' := by
  intro l
  induction l with
  | nil => intro c h; simp [collapseWS] at h
  | cons x rest ih =>
    intro c h hsp
    cases rest with
    | nil =>
      simp only [collapseWS, List.mem_singleton] at h
      by_cases hx : isPySpace x = true
      · rw [if_pos hx] at h; exact h
      · rw [if_neg hx] at h; subst h; exact absurd hsp hx
    | cons d rest2 =>
      simp only [collapseWS] at h
      by_cases hb : (isPySpace x && isPySpace d) = true
      · rw [if_pos hb] at h; exact ih c h hsp
      · rw [if_neg hb] at h
        rcases List.mem_cons.mp h with he | hm
        · by_cases hx : isPySpace x = true
          · rw [if_pos hx] at he; exact he
          · rw [if_neg hx] at he; subst he
            exact absurd hsp hx
        · exact ih c hm hsp

theorem chain'_dropWhile {α : Type u} (R : α → α → Prop) (p : α → Bool) :
    ∀ l : List α, List.Chain' R l → List.Chain' R (l.dropWhile p) := by
  intro l
  induction l with
  | nil => intro h; simpa using h
  | cons x xs ih =>
    intro h
    rw [List.dropWhile_cons]
    by_cases hx : p x = true
    · rw [if_pos hx]
      exact ih (List.chain'_cons'.mp h).2
    · rw [if_neg hx]
      exact h

theorem wsok_flip (a b : Char) (h : WSok a b) : WSok b a := by
  intro hcon
  exact h ⟨hcon.2, hcon.1⟩

theorem chain'_wsok_reverse (l : List Char) (h : List.Chain' WSok l) :
    List.Chain' WSok l.reverse := by
  rw [List.chain'_reverse]
  exact List.Chain'.imp (fun a b hab => wsok_flip a b hab) h

theorem chain'_pyStripL (l : List Char) (h : List.Chain' WSok l) :
    List.Chain' WSok (pyStripL l) := by
  unfold pyStripL
  exact chain'_wsok_reverse _ (chain'_dropWhile _ _ _ (chain'_wsok_reverse _ (chain'_dropWhile _ _ _ h)))

theorem dropWhile_head_not {α : Type u} (p : α → Bool) :
    ∀ (l : List α) (a : α), (l.dropWhile p).head? = some a → p a = false := by
  intro l
  induction l with
  | nil => intro a h; simp at h
  | cons x xs ih =>
    intro a h
    rw [List.dropWhile_cons] at h
    by_cases hx : p x = true
    · rw [if_pos hx] at h
      exact ih a h
    · rw [if_neg hx] at h
      rw [List.head?_cons, Option.some.injEq] at h
      subst h
      cases hpx : p x
      · rfl
      · exact absurd hpx hx

theorem dropWhile_self {α : Type u} (p : α → Bool) (l : List α)
    (h : ∀ a, l.head? = some a → p a = false) : l.dropWhile p = l := by
  cases l with
  | nil => rfl
  | cons x xs =>
    rw [List.dropWhile_cons, if_neg]
    rw [h x rfl]
    exact Bool.false_ne_true

theorem dropWhile_getLast? {α : Type u} (p : α → Bool) :
    ∀ l : List α, l.dropWhile p = [] ∨ (l.dropWhile p).getLast? = l.getLast? := by
  intro l
  induction l with
  | nil => left; rfl
  | cons x xs ih =>
    rw [List.dropWhile_cons]
    by_cases hx : p x = true
    · rw [if_pos hx]
      cases xs with
      | nil => left; rfl
      | cons d ds =>
        rcases ih with hnil | hlast
        · left; exact hnil
        · right
          rw [hlast, List.getLast?_cons_cons]
    · rw [if_neg hx]
      right; rfl

theorem pyStripL_of_clean (l : List Char)
    (h1 : ∀ a, l.head? = some a → isPySpace a = false)
    (h2 : ∀ a, l.getLast? = some a → isPySpace a = false) : pyStripL l = l := by
  unfold pyStripL
  rw [dropWhile_self isPySpace l h1]
  rw [dropWhile_self isPySpace l.reverse (by
    intro a ha
    rw [List.head?_reverse] at ha
    exact h2 a ha)]
  exact List.reverse_reverse l

theorem pyStripL_head_clean (l : List Char) :
    ∀ a, (pyStripL l).head? = some a → isPySpace a = false := by
  intro a h
  unfold pyStripL at h
  rw [List.head?_reverse] at h
  rcases dropWhile_getLast? isPySpace (l.dropWhile isPySpace).reverse with hnil | hlast
  · rw [hnil] at h; simp at h
  · rw [hlast, List.getLast?_reverse] at h
    exact dropWhile_head_not isPySpace l a h

theorem pyStripL_getLast_clean (l : List Char) :
    ∀ a, (pyStripL l).getLast? = some a → isPySpace a = false := by
  intro a h
  unfold pyStripL at h
  rw [List.getLast?_reverse] at h
  exact dropWhile_head_not isPySpace _ a h

theorem pyStripL_idem (l : List Char) : pyStripL (pyStripL l) = pyStripL l :=
  pyStripL_of_clean _ (pyStripL_head_clean l) (pyStripL_getLast_clean l)

theorem collapseWS_of_clean :
    ∀ l : List Char, List.Chain' WSok l → (∀ c ∈ l, isPySpace c = true → c = ' ') →
      collapseWS l = l := by
  intro l
  induction l with
  | nil => intro _ _; rfl
  | cons x rest ih =>
    intro hch hsp
    cases rest with
    | nil =>
      simp only [collapseWS]
      by_cases hx : isPySpace x = true
      · rw [if_pos hx, hsp x (by simp) hx]
      · rw [if_neg hx]
    | cons d rest2 =>
      simp only [collapseWS]
      have hwd : WSok x d := by
        have hc := List.chain'_cons'.mp hch
        exact hc.1 d rfl
      have hb : ¬((isPySpace x && isPySpace d) = true) := by
        intro hcon
        exact hwd ⟨(Bool.and_eq_true _ _ |>.mp hcon).1, (Bool.and_eq_true _ _ |>.mp hcon).2⟩
      rw [if_neg hb]
      have htail : collapseWS (d :: rest2) = d :: rest2 :=
        ih (List.chain'_cons'.mp hch).2
          (fun c hc hspc => hsp c (List.mem_cons_of_mem x hc) hspc)
      rw [htail]
      by_cases hx : isPySpace x = true
      · rw [if_pos hx, hsp x (by simp) hx]
      · rw [if_neg hx]

theorem expandWith_id (f : Char → List Char) :
    ∀ l : List Char, (∀ c ∈ l, f c = [c]) → expandWith f l = l := by
  intro l
  induction l with
  | nil => intro _; rfl
  | cons x xs ih =>
    intro h
    simp only [expandWith]
    rw [h x (by simp), ih (fun c hc => h c (by simp [hc]))]
    rfl

theorem normTitleL_idem_on_stable (x : List Char)
    (h : ∀ c ∈ normTitleL x, pyLowerChar c = [c] ∧ nfkdChar c = [c]) :
    normTitleL (normTitleL x) = normTitleL x := by
  have hlow : expandWith pyLowerChar (normTitleL x) = normTitleL x :=
    expandWith_id _ _ (fun c hc => (h c hc).1)
  have hnfkd : expandWith nfkdChar (normTitleL x) = normTitleL x :=
    expandWith_id _ _ (fun c hc => (h c hc).2)
  have hstrip : pyStripL (normTitleL x) = normTitleL x := by
    show pyStripL (pyStripL (collapseWS (keepWordSpace (removeCombining
      (expandWith nfkdChar (pyStripL (expandWith pyLowerChar x))))))) = _
    exact pyStripL_idem _
  have hmem : ∀ c ∈ normTitleL x,
      c ∈ keepWordSpace (removeCombining
        (expandWith nfkdChar (pyStripL (expandWith pyLowerChar x)))) ∨ c = ' ' := by
    intro c hc
    have hc2 : c ∈ collapseWS (keepWordSpace (removeCombining
        (expandWith nfkdChar (pyStripL (expandWith pyLowerChar x))))) :=
      mem_of_mem_pyStripL _ c hc
    exact mem_collapseWS _ c hc2
  have hcomb : ∀ c ∈ normTitleL x, isCombiningChar c = false := by
    intro c hc
    rcases hmem c hc with h4 | he
    · have h3 := (List.mem_filter.mp h4).1
      have h2 := (List.mem_filter.mp h3).2
      simpa using h2
    · subst he; rfl
  have hword : ∀ c ∈ normTitleL x, (isWordChar c || isPySpace c) = true := by
    intro c hc
    rcases hmem c hc with h4 | he
    · exact (List.mem_filter.mp h4).2
    · subst he; rfl
  have hsp2 : ∀ c ∈ normTitleL x, isPySpace c = true → c = ' ' := by
    intro c hc hspc
    have hc2 : c ∈ collapseWS (keepWordSpace (removeCombining
        (expandWith nfkdChar (pyStripL (expandWith pyLowerChar x))))) :=
      mem_of_mem_pyStripL _ c hc
    exact collapseWS_space_mem _ c hc2 hspc
  have hch : List.Chain' WSok (normTitleL x) :=
    chain'_pyStripL _ (collapseWS_chain' _)
  have hcoll : collapseWS (normTitleL x) = normTitleL x :=
    collapseWS_of_clean _ hch hsp2
  have hrc : removeCombining (normTitleL x) = normTitleL x :=
    List.filter_eq_self.mpr (fun c hc => by rw [hcomb c hc]; rfl)
  have hkw : keepWordSpace (normTitleL x) = normTitleL x :=
    List.filter_eq_self.mpr hword
  show pyStripL (collapseWS (keepWordSpace (removeCombining
    (expandWith nfkdChar (pyStripL (expandWith pyLowerChar (normTitleL x))))))) = normTitleL x
  rw [hlow, hstrip, hnfkd, hrc, hkw, hcoll, hstrip]

/-- C5 counterexample: normalize_title is not idempotent on every
string.  NFKD-decomposing the trade-mark sign introduces the uppercase
letters "TM" after the lowercasing step has already run, so
normalize_title of the trade-mark sign is "TM", which a second
application lowers to "tm". -/
theorem c5_not_idempotent_counterexample :
    ¬(normalize_title (normalize_title "™") = normalize_title "™") := by
  decide

/-- C5 (amended): normalize_title is idempotent on every string whose
normalized form consists of characters fixed by the lowercasing map and
by NFKD decomposition — in particular on every ASCII string.  (The
unrestricted claim fails: compatibility decompositions can introduce
cased characters after lowercasing has run, see the counterexample.) -/
theorem c5_normalize_title_idem (s : String)
    (h : ∀ c ∈ (normalize_title s).data, pyLowerChar c = [c] ∧ nfkdChar c = [c]) :
    normalize_title (normalize_title s) = normalize_title s := by
  have h2 : ∀ c ∈ normTitleL s.data, pyLowerChar c = [c] ∧ nfkdChar c = [c] := h
  show (⟨normTitleL (normTitleL s.data)⟩ : String) = (⟨normTitleL s.data⟩ : String)
  rw [normTitleL_idem_on_stable s.data h2]

/-- Witness for C5 (amended): an ordinary punctuated ASCII title is a
fixed point of a second normalization. -/
theorem c5_normalize_title_idem_witness :
    normalize_title (normalize_title "Hello, World!") = normalize_title "Hello, World!" :=
  c5_normalize_title_idem "Hello, World!" (by decide)
